import Mathlib

/-!
Verification development for the RoboND perception pipeline
(Exercise-1 RANSAC.py, Exercise-2 segmentation.py, Exercise-3
object_recognition.py and sensor_stick/features.py).

Real-valued sensor data is embedded over the rationals; a point-cloud
field that may be NaN is embedded as an `Option` value, `none` playing
the role of NaN (the only NaN behaviour the scripts rely on is
`read_points(..., skip_nans=True)`, which drops a point when any read
field is NaN).  Packed RGB floats are embedded directly as the triple
of 0-255 channel values that `float_to_rgb` unpacks them to.
-/

namespace Perception

/-- A 3-D position, as used by the geometric stages. -/
abbrev Pt : Type := ℚ × ℚ × ℚ

/-- Componentwise difference of two positions. -/
def sub (u v : Pt) : Pt := (u.1 - v.1, u.2.1 - v.2.1, u.2.2 - v.2.2)

/-- Cross product of two vectors. -/
def cross (u v : Pt) : Pt :=
  (u.2.1 * v.2.2 - u.2.2 * v.2.1,
   u.2.2 * v.1 - u.1 * v.2.2,
   u.1 * v.2.1 - u.2.1 * v.1)

/-- Dot product of two vectors. -/
def dot (u v : Pt) : ℚ := u.1 * v.1 + u.2.1 * v.2.1 + u.2.2 * v.2.2

/-- Squared Euclidean distance between two positions. -/
def sqDist (u v : Pt) : ℚ :=
  (u.1 - v.1) ^ 2 + (u.2.1 - v.2.1) ^ 2 + (u.2.2 - v.2.2) ^ 2

/-- Indexing into a cloud with a default, so that index arithmetic stays
total; every use is guarded by an index bound. -/
def getPt (pts : List Pt) (i : ℕ) : Pt := pts.getD i (0, 0, 0)

/-! ### np.histogram with equal-width bins

`np.histogram(vals, bins=B, range=(lo, hi))` counts, for each of the `B`
equal-width bins partitioning `[lo, hi]`, the values falling in it; a
value outside `[lo, hi]` is not counted, and the final bin is closed on
the right (a value equal to `hi` lands in bin `B-1`). -/

/-- The bin a value falls into: `none` when the value is outside
`[lo, hi]`, otherwise `floor ((v - lo) * B / (hi - lo))` clamped into
`[0, B-1]` (the clamp puts `v = hi` in the last bin). -/
def binIndex (B : ℕ) (lo hi v : ℚ) : Option ℕ :=
  if lo ≤ v ∧ v ≤ hi then some (min ((v - lo) * B / (hi - lo)).floor.toNat (B - 1))
  else none

/-- The list of the `B` bin counts of `np.histogram(vals, B, (lo, hi))`. -/
def histogram (B : ℕ) (lo hi : ℚ) (vals : List ℚ) : List ℕ :=
  (List.range B).map (fun i => (vals.filter (fun v => binIndex B lo hi v == some i)).length)

/-! ### features.py -/

/-- A point of an XYZRGB cloud as `pc2.read_points` yields it: fields
`x, y, z` and the packed RGB float.  A `none` field is a NaN; the RGB
float, when not NaN, is embedded as the `[0,255]³` channel triple that
`float_to_rgb` unpacks it to. -/
structure ColorPoint where
  x : Option ℚ
  y : Option ℚ
  z : Option ℚ
  rgb : Option (Fin 256 × Fin 256 × Fin 256)
deriving DecidableEq

/-- A point of the surface-normal cloud: the `normal_x, normal_y,
normal_z` fields read by `compute_normal_histograms`; `none` is NaN. -/
structure NormalPoint where
  nx : Option ℚ
  ny : Option ℚ
  nz : Option ℚ
deriving DecidableEq

/-- A color point with no NaN field (kept by `skip_nans=True`). -/
def colorPointFinite (p : ColorPoint) : Bool :=
  p.x.isSome && p.y.isSome && p.z.isSome && p.rgb.isSome

/-- A normal point with no NaN field (kept by `skip_nans=True`). -/
def normalPointFinite (p : NormalPoint) : Bool :=
  p.nx.isSome && p.ny.isSome && p.nz.isSome

/-- `pc2.read_points(cloud, skip_nans=True)` for an XYZRGB cloud: the
points all of whose fields are non-NaN, in cloud order. -/
def readColorPoints (cloud : List ColorPoint) :
    List (ℚ × ℚ × ℚ × (Fin 256 × Fin 256 × Fin 256)) :=
  cloud.filterMap (fun p =>
    match p.x, p.y, p.z, p.rgb with
    | some a, some b, some c, some col => some (a, b, c, col)
    | _, _, _, _ => none)

/-- `pc2.read_points(normal_cloud, field_names=(normal_x, normal_y,
normal_z), skip_nans=True)`. -/
def readNormals (cloud : List NormalPoint) : List (ℚ × ℚ × ℚ) :=
  cloud.filterMap (fun p =>
    match p.nx, p.ny, p.nz with
    | some a, some b, some c => some (a, b, c)
    | _, _, _ => none)

/-- `matplotlib.colors.rgb_to_hsv` on one normalized RGB triple.  The
source applies its channel-max masks in the order red, green, blue with
later assignments overwriting earlier ones, so on ties blue wins, then
green; hue is reduced into `[0,1)` by `% 1.0`, embedded as `Int.fract`. -/
def rgbToHsvNorm (r g b : ℚ) : ℚ × ℚ × ℚ :=
  let maxc := max r (max g b)
  let minc := min r (min g b)
  let delta := maxc - minc
  let s := if 0 < maxc then delta / maxc else 0
  let hRaw :=
    if 0 < delta then
      if b = maxc then 4 + (r - g) / delta
      else if g = maxc then 2 + (b - r) / delta
      else (g - b) / delta
    else 0
  (Int.fract (hRaw / 6), s, maxc)

/-- `rgb_to_hsv` from features.py: divides each 0-255 channel by 255
and converts; composed with the `* 255` rescale applied at the call
site in `compute_color_histograms`. -/
def pointColorHsv (c : Fin 256 × Fin 256 × Fin 256) : ℚ × ℚ × ℚ :=
  let hsv := rgbToHsvNorm ((c.1 : ℚ) / 255) ((c.2.1 : ℚ) / 255) ((c.2.2 : ℚ) / 255)
  (255 * hsv.1, 255 * hsv.2.1, 255 * hsv.2.2)

/-- The per-point channel triples appended to `point_colors_list`:
HSV rescaled by 255 when `using_hsv`, raw RGB channels otherwise. -/
def colorValues (cloud : List ColorPoint) (using_hsv : Bool) : List (ℚ × ℚ × ℚ) :=
  (readColorPoints cloud).map (fun p =>
    let c := p.2.2.2
    if using_hsv then pointColorHsv c
    else ((c.1 : ℚ), (c.2.1 : ℚ), (c.2.2 : ℚ)))

/-- The concatenated raw bin counts `hist_features` of
`compute_color_histograms`: three 32-bin histograms over `(0, 256)`,
one per channel. -/
def colorHistogramCounts (cloud : List ColorPoint) (using_hsv : Bool) : List ℕ :=
  let vals := colorValues cloud using_hsv
  histogram 32 0 256 (vals.map (fun t => t.1))
    ++ histogram 32 0 256 (vals.map (fun t => t.2.1))
    ++ histogram 32 0 256 (vals.map (fun t => t.2.2))

/-- `compute_color_histograms(cloud, using_hsv=True)`: the concatenated
counts normalized by their own total (`hist_features / np.sum(...)`).
When the total is zero the Python division yields NaN in every entry;
rational division by zero stands in for that here, and the zero-total
condition itself is what the empty-cluster theorems exhibit. -/
def computeColorHistograms (cloud : List ColorPoint) (using_hsv : Bool := true) :
    List ℚ :=
  let counts := colorHistogramCounts cloud using_hsv
  counts.map (fun k : ℕ => (k : ℚ) / (counts.sum : ℚ))

/-- The concatenated raw bin counts of `compute_normal_histograms`:
three 20-bin histograms over `(-1, 1)`, one per normal component. -/
def normalHistogramCounts (cloud : List NormalPoint) : List ℕ :=
  let vals := readNormals cloud
  histogram 20 (-1) 1 (vals.map (fun t => t.1))
    ++ histogram 20 (-1) 1 (vals.map (fun t => t.2.1))
    ++ histogram 20 (-1) 1 (vals.map (fun t => t.2.2))

/-- `compute_normal_histograms(normal_cloud)`. -/
def computeNormalHistograms (cloud : List NormalPoint) : List ℚ :=
  let counts := normalHistogramCounts cloud
  counts.map (fun k : ℕ => (k : ℚ) / (counts.sum : ℚ))

/-- The feature vector assembled per cluster in object_recognition.py:
`np.concatenate((chists, nhists))` with
`chists = compute_color_histograms(ros_cluster, using_hsv=True)` and
`nhists = compute_normal_histograms(get_normals(ros_cluster))`. -/
def featureVector (cluster : List ColorPoint) (normals : List NormalPoint) :
    List ℚ :=
  computeColorHistograms cluster true ++ computeNormalHistograms normals

/-! ### RegionCropper (pass-through filter)

The filter itself lives in the PCL library; only its configuration and
invocation (`passthrough.set_filter_field_name`, `set_filter_limits`,
`passthrough.filter()`) are in the repository. -/

/-- The crop axis selected by `set_filter_field_name`. -/
inductive Axis where
  | x
  | y
  | z
deriving DecidableEq

/-- The coordinate of a point on a crop axis. -/
def axisCoord (a : Axis) (p : Pt) : ℚ :=
  match a with
  | Axis.x => p.1
  | Axis.y => p.2.1
  | Axis.z => p.2.2

/-- Modelled from the spec: the PCL pass-through filter invoked by
`passthrough.filter()` (missing from the repo sources) — keeps exactly
the points whose coordinate on the configured axis lies in the
inclusive interval `[lo, hi]`, in input order. -/
def passthroughFilter (cloud : List Pt) (a : Axis) (lo hi : ℚ) : List Pt :=
  cloud.filter (fun p => decide (lo ≤ axisCoord a p ∧ axisCoord a p ≤ hi))

/-! ### Downsampler (voxel grid filter) -/

/-- A point for the voxel stage: position and (unpacked) color. -/
structure VPoint where
  pos : Pt
  color : ℚ × ℚ × ℚ
deriving DecidableEq

/-- Componentwise minimum corner of the cloud bounding box. -/
def cloudMinPos (cloud : List VPoint) : Pt :=
  match cloud with
  | [] => (0, 0, 0)
  | p :: ps => ps.foldl
      (fun m q => (min m.1 q.pos.1, min m.2.1 q.pos.2.1, min m.2.2 q.pos.2.2)) p.pos

/-- The integer-quantized cube coordinates `floor((p - min) / L)`. -/
def voxelKey (L : ℚ) (m p : Pt) : ℤ × ℤ × ℤ :=
  (((p.1 - m.1) / L).floor, ((p.2.1 - m.2.1) / L).floor, ((p.2.2 - m.2.2) / L).floor)

/-- The point emitted for one non-empty cube: mean position, and mean
color rounded to the nearest integer per channel. -/
def voxelCentroid (l : List VPoint) : VPoint :=
  let n : ℚ := (l.length : ℚ)
  let sp := l.foldl
    (fun s q => (s.1 + q.pos.1, s.2.1 + q.pos.2.1, s.2.2 + q.pos.2.2))
    ((0 : ℚ), (0 : ℚ), (0 : ℚ))
  let sc := l.foldl
    (fun s q => (s.1 + q.color.1, s.2.1 + q.color.2.1, s.2.2 + q.color.2.2))
    ((0 : ℚ), (0 : ℚ), (0 : ℚ))
  { pos := (sp.1 / n, sp.2.1 / n, sp.2.2 / n),
    color := ((round (sc.1 / n) : ℤ), ((round (sc.2.1 / n) : ℤ) : ℚ), ((round (sc.2.2 / n) : ℤ) : ℚ)) }

/-- Modelled from the spec: the PCL voxel-grid filter invoked by
`vox.filter()` (missing from the repo sources) — partition space into
cubes of side `L` anchored at the bounding-box minimum, and emit one
centroid per non-empty cube (one cube per distinct quantized key, in
order of first occurrence). -/
def voxelFilter (cloud : List VPoint) (L : ℚ) : List VPoint :=
  let m := cloudMinPos cloud
  let keys := (cloud.map (fun p => voxelKey L m p.pos)).dedup
  keys.map (fun k => voxelCentroid (cloud.filter (fun p => decide (voxelKey L m p.pos = k))))

/-! ### PlaneSegmenter (RANSAC) and extraction -/

/-- Plane coefficients `(a, b, c, d)` of `a·x + b·y + c·z + d = 0`.
The PCL model normalizes `(a, b, c)` to unit length; over ℚ the normal
is kept unnormalized and the distance test compares squares, which
defines the same inlier set. -/
structure PlaneModel where
  a : ℚ
  b : ℚ
  c : ℚ
  d : ℚ
deriving DecidableEq

/-- Perpendicular distance of `p` to the plane is at most `τ`:
`(a·x + b·y + c·z + d)² ≤ τ² · ‖(a,b,c)‖²`. -/
def isInlier (m : PlaneModel) (τ : ℚ) (p : Pt) : Prop :=
  (m.a * p.1 + m.b * p.2.1 + m.c * p.2.2 + m.d) ^ 2
    ≤ τ ^ 2 * (m.a ^ 2 + m.b ^ 2 + m.c ^ 2)

instance (m : PlaneModel) (τ : ℚ) (p : Pt) : Decidable (isInlier m τ p) :=
  inferInstanceAs (Decidable ((m.a * p.1 + m.b * p.2.1 + m.c * p.2.2 + m.d) ^ 2
    ≤ τ ^ 2 * (m.a ^ 2 + m.b ^ 2 + m.c ^ 2)))

/-- The plane through three sample points; `none` when they are
collinear (zero cross product — the spec's degenerate-sample case). -/
def planeFrom (p1 p2 p3 : Pt) : Option PlaneModel :=
  let nv := cross (sub p2 p1) (sub p3 p1)
  if nv = ((0 : ℚ), (0 : ℚ), (0 : ℚ)) then none
  else some { a := nv.1, b := nv.2.1, c := nv.2.2, d := -(dot nv p1) }

/-- The consensus set of a model: all indices whose point is within τ. -/
def planeInliers (pts : List Pt) (m : PlaneModel) (τ : ℚ) : List ℕ :=
  (List.range pts.length).filter (fun i => decide (isInlier m τ (getPt pts i)))

/-- Three distinct in-range indices, as drawn without replacement. -/
def validTriple (n : ℕ) (t : ℕ × ℕ × ℕ) : Prop :=
  t.1 < n ∧ t.2.1 < n ∧ t.2.2 < n ∧ t.1 ≠ t.2.1 ∧ t.1 ≠ t.2.2 ∧ t.2.1 ≠ t.2.2

instance (n : ℕ) (t : ℕ × ℕ × ℕ) : Decidable (validTriple n t) :=
  inferInstanceAs (Decidable (t.1 < n ∧ t.2.1 < n ∧ t.2.2 < n
    ∧ t.1 ≠ t.2.1 ∧ t.1 ≠ t.2.2 ∧ t.2.1 ≠ t.2.2))

/-- One RANSAC trial: fit a plane to the sampled triple and score it by
its consensus set; a collinear (or out-of-range) sample yields nothing. -/
def ransacTrial (pts : List Pt) (τ : ℚ) (t : ℕ × ℕ × ℕ) :
    Option (PlaneModel × List ℕ) :=
  if validTriple pts.length t then
    (planeFrom (getPt pts t.1) (getPt pts t.2.1) (getPt pts t.2.2)).map
      (fun m => (m, planeInliers pts m τ))
  else none

/-- Keep the candidate whose inlier count strictly exceeds the best so
far. -/
def ransacStep (pts : List Pt) (τ : ℚ) (stream : ℕ → ℕ × ℕ × ℕ)
    (best : Option (PlaneModel × List ℕ)) (k : ℕ) : Option (PlaneModel × List ℕ) :=
  match ransacTrial pts τ (stream k) with
  | none => best
  | some (m, inl) =>
    match best with
    | none => some (m, inl)
    | some (bm, binl) => if binl.length < inl.length then some (m, inl) else some (bm, binl)

/-- Modelled from the spec: `seg.segment()` with `SACMODEL_PLANE` /
`SAC_RANSAC` (the algorithm lives in the PCL library, not in the repo
sources) — `K` trials drawn from the pseudo-random source `stream`,
returning the best plane and its inlier index set, or `none`
(`NoModelFound`) when no trial produced a non-collinear triple.  The
random source, implicit in PCL, is made an explicit argument here. -/
def ransacSegment (pts : List Pt) (τ : ℚ) (K : ℕ) (stream : ℕ → ℕ × ℕ × ℕ) :
    Option (PlaneModel × List ℕ) :=
  (List.range K).foldl (ransacStep pts τ stream) none

/-- The kept `(index, point)` pairs of `cloud.extract(indices,
negative)`: the points at the listed indices, or at the complement when
`negative` is set. -/
def extractEnum {α : Type} (cl : List α) (idx : List ℕ) (negative : Bool) :
    List (ℕ × α) :=
  cl.enum.filter (fun e => decide (e.1 ∈ idx) != negative)

/-- Modelled from the spec: `cloud.extract(indices, negative)` from the
python-pcl binding (missing from the repo sources). -/
def extract {α : Type} (cl : List α) (idx : List ℕ) (negative : Bool) : List α :=
  (extractEnum cl idx negative).map Prod.snd

/-! ### SpatialClusterer (Euclidean cluster extraction) -/

/-- The within-radius neighbors of point `q` (spec §4.4: the spatial
index answers the query; the k-d tree accelerates but does not change
the returned set).  Comparing squared distances avoids square roots. -/
def neighborIdx (pts : List Pt) (r : ℚ) (q : ℕ) : List ℕ :=
  (List.range pts.length).filter (fun j => decide (sqDist (getPt pts q) (getPt pts j) ≤ r ^ 2))

/-- Region growing: pop a queued point, mark its not-yet-visited
neighbors visited and add them to the cluster and the queue, until the
queue empties.  Returns the final visited set and the grown cluster. -/
def grow (n : ℕ) (nbrs : ℕ → List ℕ) (visited : Finset ℕ) (queue : List ℕ)
    (cluster : List ℕ) : Finset ℕ × List ℕ :=
  match queue with
  | [] => (visited, cluster)
  | q :: rest =>
    grow n nbrs
      (visited ∪ ((nbrs q).filter (fun j => decide (j < n ∧ j ∉ visited))).toFinset)
      (rest ++ (nbrs q).filter (fun j => decide (j < n ∧ j ∉ visited)))
      (cluster ++ (nbrs q).filter (fun j => decide (j < n ∧ j ∉ visited)))
termination_by ((Finset.range n \ visited).card, queue.length)
decreasing_by
  rw [Prod.lex_iff]
  rcases List.eq_nil_or_concat ((nbrs q).filter (fun j => decide (j < n ∧ j ∉ visited)))
    with hf | hf
  · right
    rw [hf]
    constructor
    · simp
    · simp
  · left
    apply Finset.card_lt_card
    rw [Finset.ssubset_iff_of_subset (Finset.sdiff_subset_sdiff le_rfl Finset.subset_union_left)]
    obtain ⟨l2, a, ha⟩ := hf
    have hmem : a ∈ (nbrs q).filter (fun j => decide (j < n ∧ j ∉ visited)) := by
      rw [ha]
      simp
    have hprop := List.of_mem_filter hmem
    rw [decide_eq_true_eq] at hprop
    refine ⟨a, ?_, ?_⟩
    · rw [Finset.mem_sdiff, Finset.mem_range]
      exact ⟨hprop.1, hprop.2⟩
    · intro hcon
      rw [Finset.mem_sdiff] at hcon
      exact hcon.2 (Finset.mem_union_right _ (List.mem_toFinset.mpr hmem))

/-- The outer clustering loop: scan seed indices in increasing order,
grow a cluster from each unvisited seed, and keep it when its size lies
in the `[mmin, mmax]` window (out-of-window clusters are dropped, their
points staying visited). -/
def clusterLoop (n : ℕ) (nbrs : ℕ → List ℕ) (mmin mmax : ℕ) (i : ℕ)
    (visited : Finset ℕ) : List (List ℕ) :=
  if _h : i < n then
    if i ∈ visited then clusterLoop n nbrs mmin mmax (i + 1) visited
    else
      let res := grow n nbrs (insert i visited) [i] [i]
      let rest := clusterLoop n nbrs mmin mmax (i + 1) res.1
      if mmin ≤ res.2.length ∧ res.2.length ≤ mmax then res.2 :: rest else rest
  else []
termination_by n - i

/-- Modelled from the spec: `ec.Extract()` — PCL Euclidean cluster
extraction (the algorithm lives in the PCL library, not in the repo
sources): radius-based region growing with tolerance `r` over the
points, restricted to the `[mmin, mmax]` size window.  The seed of each
cluster belongs to it. -/
def euclideanClusterExtraction (pts : List Pt) (r : ℚ) (mmin mmax : ℕ) :
    List (List ℕ) :=
  clusterLoop pts.length (neighborIdx pts r) mmin mmax 0 ∅

/-! ### A degenerate (all-collinear) frame -/

/-- Four collinear points on the x-axis: every sample triple is
degenerate, so RANSAC can never fit a plane. -/
def collinearCloud : List Pt := [(0, 0, 0), (1, 0, 0), (2, 0, 0), (3, 0, 0)]

/-- A one-point cluster and its unit normal, used to instantiate the
feature-vector theorem. -/
def sampleCluster : List ColorPoint :=
  [{ x := some 0, y := some 0, z := some 0, rgb := some (0, 0, 0) }]

/-- The unit normal of the sample cluster. -/
def sampleNormals : List NormalPoint :=
  [{ nx := some 0, ny := some 0, nz := some 1 }]

/-- A small frame containing two candidate planes (z = 0 and z = 1). -/
def demoCloud : List Pt :=
  [(0, 0, 0), (1, 0, 0), (0, 1, 0), (0, 0, 1), (1, 0, 1), (0, 1, 1)]

/-- One possible behaviour of the unseeded random source. -/
def streamA : ℕ → ℕ × ℕ × ℕ := fun _ => (0, 1, 2)

/-- Another possible behaviour of the unseeded random source. -/
def streamB : ℕ → ℕ × ℕ × ℕ := fun _ => (3, 4, 5)

theorem histogram_length (B : ℕ) (lo hi : ℚ) (vals : List ℚ) :
    (histogram B lo hi vals).length = B := by
  simp [histogram]

theorem binIndex_lt (B : ℕ) (hB : 0 < B) (lo hi v : ℚ) {i : ℕ}
    (h : binIndex B lo hi v = some i) : i < B := by
  unfold binIndex at h
  split at h
  · simp only [Option.some.injEq] at h
    omega
  · exact absurd h (by simp)

theorem sum_range_indicator (B j : ℕ) (hj : j < B) :
    ((List.range B).map (fun i => if j = i then 1 else 0)).sum = 1 := by
  induction B with
  | zero => omega
  | succ n ih =>
    rw [List.range_succ, List.map_append, List.sum_append]
    rcases Nat.lt_or_ge j n with h | h
    · rw [ih h]
      simp only [List.map_cons, List.map_nil, List.sum_cons, List.sum_nil]
      have : j ≠ n := by omega
      simp [this]
    · have hjn : j = n := by omega
      subst hjn
      have : ((List.range j).map (fun i => if j = i then 1 else 0)).sum = 0 := by
        apply List.sum_eq_zero
        intro x hx
        simp only [List.mem_map, List.mem_range] at hx
        obtain ⟨i, hi, hxe⟩ := hx
        have : j ≠ i := by omega
        simp [this] at hxe
        omega
      simp [this]

theorem sum_range_indicator_zero (B : ℕ) (j : ℕ) (hj : ¬ j < B) :
    ((List.range B).map (fun i => if j = i then 1 else 0)).sum = 0 := by
  apply List.sum_eq_zero
  intro x hx
  simp only [List.mem_map, List.mem_range] at hx
  obtain ⟨i, hi, hxe⟩ := hx
  have : j ≠ i := by omega
  simp [this] at hxe
  omega

/-- The bin counts of a histogram sum to the number of in-range values. -/
theorem histogram_sum (B : ℕ) (hB : 0 < B) (lo hi : ℚ) (vals : List ℚ) :
    (histogram B lo hi vals).sum
      = (vals.filter (fun v => (binIndex B lo hi v).isSome)).length := by
  induction vals with
  | nil => simp [histogram]
  | cons v vs ih =>
    cases hbin : binIndex B lo hi v with
    | none =>
      have he : histogram B lo hi (v :: vs) = histogram B lo hi vs := by
        unfold histogram
        apply List.map_congr_left
        intro i _
        simp [List.filter_cons, hbin]
      rw [he, ih]
      simp [List.filter_cons, hbin]
    | some j =>
      have hjB : j < B := binIndex_lt B hB lo hi v hbin
      have he : histogram B lo hi (v :: vs)
          = (List.range B).map (fun i => (if j = i then 1 else 0)
              + (vs.filter (fun w => binIndex B lo hi w == some i)).length) := by
        unfold histogram
        apply List.map_congr_left
        intro i _
        by_cases h : j = i
        · subst h
          simp [List.filter_cons, hbin, Nat.add_comm]
        · simp [List.filter_cons, hbin, h]
      rw [he, List.sum_map_add, sum_range_indicator B j hjB]
      have h2 : ((List.range B).map (fun i =>
          (vs.filter (fun w => binIndex B lo hi w == some i)).length)).sum
          = (vs.filter (fun w => (binIndex B lo hi w).isSome)).length := ih
      rw [h2]
      simp [List.filter_cons, hbin, Nat.add_comm]

/-- If every value lies in `[lo, hi]`, every value is counted: the bins
sum to the number of values. -/
theorem histogram_sum_of_inRange (B : ℕ) (hB : 0 < B) (lo hi : ℚ) (vals : List ℚ)
    (h : ∀ v ∈ vals, lo ≤ v ∧ v ≤ hi) :
    (histogram B lo hi vals).sum = vals.length := by
  rw [histogram_sum B hB lo hi vals]
  have : vals.filter (fun v => (binIndex B lo hi v).isSome) = vals := by
    apply List.filter_eq_self.mpr
    intro v hv
    simp [binIndex, h v hv]
  rw [this]

theorem histogram_sum_le (B : ℕ) (hB : 0 < B) (lo hi : ℚ) (vals : List ℚ) :
    (histogram B lo hi vals).sum ≤ vals.length := by
  rw [histogram_sum B hB lo hi vals]
  exact List.length_filter_le _ _

/-! ### Range and total-count lemmas for the histogram features -/

theorem hsv_h_mem (r g b : ℚ) :
    0 ≤ (rgbToHsvNorm r g b).1 ∧ (rgbToHsvNorm r g b).1 < 1 := by
  unfold rgbToHsvNorm
  exact ⟨Int.fract_nonneg _, Int.fract_lt_one _⟩

theorem hsv_s_mem (r g b : ℚ) (hr : 0 ≤ r) (hg : 0 ≤ g) (hb : 0 ≤ b) :
    0 ≤ (rgbToHsvNorm r g b).2.1 ∧ (rgbToHsvNorm r g b).2.1 ≤ 1 := by
  have h1 : (rgbToHsvNorm r g b).2.1
      = if 0 < max r (max g b) then
          (max r (max g b) - min r (min g b)) / max r (max g b)
        else 0 := rfl
  rw [h1]
  split
  · next hpos =>
    have hmin0 : 0 ≤ min r (min g b) := le_min hr (le_min hg hb)
    have hminmax : min r (min g b) ≤ max r (max g b) :=
      le_trans (min_le_left _ _) (le_max_left _ _)
    constructor
    · exact div_nonneg (by linarith) (le_of_lt hpos)
    · rw [div_le_one hpos]
      linarith
  · exact ⟨le_rfl, by norm_num⟩

theorem hsv_v_mem (r g b : ℚ) (hr : 0 ≤ r) (hr1 : r ≤ 1) (hg1 : g ≤ 1) (hb1 : b ≤ 1) :
    0 ≤ (rgbToHsvNorm r g b).2.2 ∧ (rgbToHsvNorm r g b).2.2 ≤ 1 := by
  have h1 : (rgbToHsvNorm r g b).2.2 = max r (max g b) := rfl
  rw [h1]
  exact ⟨le_trans hr (le_max_left _ _), max_le hr1 (max_le hg1 hb1)⟩

theorem channel_norm_mem (k : Fin 256) : 0 ≤ (k : ℚ) / 255 ∧ (k : ℚ) / 255 ≤ 1 := by
  have hk : (k : ℚ) ≤ 255 := by
    have := k.is_lt
    exact_mod_cast Nat.lt_succ_iff.mp this
  have hk0 : 0 ≤ (k : ℚ) := by positivity
  constructor
  · positivity
  · rw [div_le_one (by norm_num)]
    exact hk

theorem pointColorHsv_mem (c : Fin 256 × Fin 256 × Fin 256) :
    (0 ≤ (pointColorHsv c).1 ∧ (pointColorHsv c).1 ≤ 256)
    ∧ (0 ≤ (pointColorHsv c).2.1 ∧ (pointColorHsv c).2.1 ≤ 256)
    ∧ (0 ≤ (pointColorHsv c).2.2 ∧ (pointColorHsv c).2.2 ≤ 256) := by
  obtain ⟨hr0, hr1⟩ := channel_norm_mem c.1
  obtain ⟨hg0, hg1⟩ := channel_norm_mem c.2.1
  obtain ⟨hb0, hb1⟩ := channel_norm_mem c.2.2
  obtain ⟨hh0, hh1⟩ := hsv_h_mem ((c.1 : ℚ) / 255) ((c.2.1 : ℚ) / 255) ((c.2.2 : ℚ) / 255)
  obtain ⟨hs0, hs1⟩ := hsv_s_mem ((c.1 : ℚ) / 255) ((c.2.1 : ℚ) / 255) ((c.2.2 : ℚ) / 255)
    hr0 hg0 hb0
  obtain ⟨hv0, hv1⟩ := hsv_v_mem ((c.1 : ℚ) / 255) ((c.2.1 : ℚ) / 255) ((c.2.2 : ℚ) / 255)
    hr0 hr1 hg1 hb1
  unfold pointColorHsv
  refine ⟨⟨by linarith, by linarith⟩, ⟨by linarith, by linarith⟩, by linarith, by linarith⟩

theorem colorValues_mem (cloud : List ColorPoint) (m : Bool) :
    ∀ t ∈ colorValues cloud m,
      (0 ≤ t.1 ∧ t.1 ≤ 256) ∧ (0 ≤ t.2.1 ∧ t.2.1 ≤ 256) ∧ (0 ≤ t.2.2 ∧ t.2.2 ≤ 256) := by
  intro t ht
  unfold colorValues at ht
  simp only [List.mem_map] at ht
  obtain ⟨p, _, hpt⟩ := ht
  subst hpt
  cases m with
  | true => exact pointColorHsv_mem p.2.2.2
  | false =>
    obtain ⟨hr0, hr1⟩ := channel_norm_mem p.2.2.2.1
    obtain ⟨hg0, hg1⟩ := channel_norm_mem p.2.2.2.2.1
    obtain ⟨hb0, hb1⟩ := channel_norm_mem p.2.2.2.2.2
    have e : ∀ x : ℚ, 0 ≤ x / 255 → x / 255 ≤ 1 → 0 ≤ x ∧ x ≤ 256 := by
      intro x h0 h1
      rw [div_le_one (by norm_num)] at h1
      constructor
      · by_contra hneg
        push_neg at hneg
        have : x / 255 < 0 := div_neg_of_neg_of_pos hneg (by norm_num)
        linarith
      · linarith
    exact ⟨e _ hr0 hr1, e _ hg0 hg1, e _ hb0 hb1⟩

theorem colorValues_length (cloud : List ColorPoint) (m : Bool) :
    (colorValues cloud m).length = (readColorPoints cloud).length := by
  unfold colorValues
  simp

/-- Total color-histogram count: every channel value of every non-NaN
point is inside `[0, 256]`, so each of the three channel histograms
counts every read point once. -/
theorem colorHistogramCounts_sum (cloud : List ColorPoint) (m : Bool) :
    (colorHistogramCounts cloud m).sum = 3 * (readColorPoints cloud).length := by
  unfold colorHistogramCounts
  rw [List.sum_append, List.sum_append]
  have h1 := histogram_sum_of_inRange 32 (by norm_num) 0 256
    ((colorValues cloud m).map (fun t => t.1))
    (by
      intro v hv
      simp only [List.mem_map] at hv
      obtain ⟨t, ht, hvt⟩ := hv
      subst hvt
      exact (colorValues_mem cloud m t ht).1)
  have h2 := histogram_sum_of_inRange 32 (by norm_num) 0 256
    ((colorValues cloud m).map (fun t => t.2.1))
    (by
      intro v hv
      simp only [List.mem_map] at hv
      obtain ⟨t, ht, hvt⟩ := hv
      subst hvt
      exact (colorValues_mem cloud m t ht).2.1)
  have h3 := histogram_sum_of_inRange 32 (by norm_num) 0 256
    ((colorValues cloud m).map (fun t => t.2.2))
    (by
      intro v hv
      simp only [List.mem_map] at hv
      obtain ⟨t, ht, hvt⟩ := hv
      subst hvt
      exact (colorValues_mem cloud m t ht).2.2)
  rw [h1, h2, h3]
  simp only [List.length_map, colorValues_length]
  ring

/-- Total normal-histogram count when every read component lies in
`[-1, 1]`. -/
theorem normalHistogramCounts_sum (cloud : List NormalPoint)
    (h : ∀ t ∈ readNormals cloud,
      (-1 ≤ t.1 ∧ t.1 ≤ 1) ∧ (-1 ≤ t.2.1 ∧ t.2.1 ≤ 1) ∧ (-1 ≤ t.2.2 ∧ t.2.2 ≤ 1)) :
    (normalHistogramCounts cloud).sum = 3 * (readNormals cloud).length := by
  unfold normalHistogramCounts
  rw [List.sum_append, List.sum_append]
  have h1 := histogram_sum_of_inRange 20 (by norm_num) (-1) 1
    ((readNormals cloud).map (fun t => t.1))
    (by
      intro v hv
      simp only [List.mem_map] at hv
      obtain ⟨t, ht, hvt⟩ := hv
      subst hvt
      exact (h t ht).1)
  have h2 := histogram_sum_of_inRange 20 (by norm_num) (-1) 1
    ((readNormals cloud).map (fun t => t.2.1))
    (by
      intro v hv
      simp only [List.mem_map] at hv
      obtain ⟨t, ht, hvt⟩ := hv
      subst hvt
      exact (h t ht).2.1)
  have h3 := histogram_sum_of_inRange 20 (by norm_num) (-1) 1
    ((readNormals cloud).map (fun t => t.2.2))
    (by
      intro v hv
      simp only [List.mem_map] at hv
      obtain ⟨t, ht, hvt⟩ := hv
      subst hvt
      exact (h t ht).2.2)
  rw [h1, h2, h3]
  simp only [List.length_map]
  ring

theorem sum_map_cast_div (l : List ℕ) (t : ℚ) :
    (l.map (fun k : ℕ => (k : ℚ) / t)).sum = (l.sum : ℚ) / t := by
  induction l with
  | nil => simp
  | cons a as ih =>
    simp only [List.map_cons, List.sum_cons, ih]
    push_cast
    ring

/-- Normalizing a list of counts by its own total makes it sum to 1
whenever the total is nonzero. -/
theorem normalized_sum_one (l : List ℕ) (h : l.sum ≠ 0) :
    (l.map (fun k : ℕ => (k : ℚ) / (l.sum : ℚ))).sum = 1 := by
  rw [sum_map_cast_div]
  have : (l.sum : ℚ) ≠ 0 := by exact_mod_cast h
  exact div_self this

theorem readColorPoints_length_of_finite (cloud : List ColorPoint)
    (h : ∀ p ∈ cloud, colorPointFinite p) :
    (readColorPoints cloud).length = cloud.length := by
  induction cloud with
  | nil => rfl
  | cons p ps ih =>
    have hp := h p (List.mem_cons_self p _)
    unfold colorPointFinite at hp
    simp only [Bool.and_eq_true, Option.isSome_iff_exists] at hp
    obtain ⟨⟨⟨⟨a, ha⟩, b, hb⟩, c, hc⟩, col, hcol⟩ := hp
    unfold readColorPoints
    rw [List.filterMap_cons]
    simp only [ha, hb, hc, hcol]
    unfold readColorPoints at ih
    simp only [List.length_cons, ih (fun q hq => h q (List.mem_cons_of_mem p hq))]

theorem readNormals_length_of_finite (cloud : List NormalPoint)
    (h : ∀ p ∈ cloud, normalPointFinite p) :
    (readNormals cloud).length = cloud.length := by
  induction cloud with
  | nil => rfl
  | cons p ps ih =>
    have hp := h p (List.mem_cons_self p _)
    unfold normalPointFinite at hp
    simp only [Bool.and_eq_true, Option.isSome_iff_exists] at hp
    obtain ⟨⟨⟨a, ha⟩, b, hb⟩, c, hc⟩ := hp
    unfold readNormals
    rw [List.filterMap_cons]
    simp only [ha, hb, hc]
    unfold readNormals at ih
    simp only [List.length_cons, ih (fun q hq => h q (List.mem_cons_of_mem p hq))]

theorem filterMap_filter_of_none {α β : Type} (f : α → Option β) (q : α → Bool)
    (l : List α) (h : ∀ x ∈ l, ¬ q x → f x = none) :
    (l.filter q).filterMap f = l.filterMap f := by
  induction l with
  | nil => rfl
  | cons a as ih =>
    have ih2 := ih (fun x hx => h x (List.mem_cons_of_mem a hx))
    rw [List.filter_cons]
    by_cases hq : q a
    · rw [if_pos hq, List.filterMap_cons, List.filterMap_cons]
      cases hfa : f a
      · exact ih2
      · rw [ih2]
    · rw [if_neg hq, List.filterMap_cons, h a (List.mem_cons_self a _) hq]
      exact ih2

theorem readColorPoints_filter (cloud : List ColorPoint) :
    readColorPoints (cloud.filter colorPointFinite) = readColorPoints cloud := by
  unfold readColorPoints
  apply filterMap_filter_of_none
  intro p _ hp
  unfold colorPointFinite at hp
  cases hx : p.x <;> cases hy : p.y <;> cases hz : p.z <;> cases hr : p.rgb <;>
    simp_all

theorem readNormals_filter (cloud : List NormalPoint) :
    readNormals (cloud.filter normalPointFinite) = readNormals cloud := by
  unfold readNormals
  apply filterMap_filter_of_none
  intro p _ hp
  unfold normalPointFinite at hp
  cases hx : p.nx <;> cases hy : p.ny <;> cases hz : p.nz <;> simp_all

theorem computeColorHistograms_filter (cloud : List ColorPoint) (m : Bool) :
    computeColorHistograms cloud m
      = computeColorHistograms (cloud.filter colorPointFinite) m := by
  unfold computeColorHistograms colorHistogramCounts colorValues
  rw [readColorPoints_filter]

theorem computeNormalHistograms_filter (cloud : List NormalPoint) :
    computeNormalHistograms cloud
      = computeNormalHistograms (cloud.filter normalPointFinite) := by
  unfold computeNormalHistograms normalHistogramCounts
  rw [readNormals_filter]

theorem mem_readNormals (cloud : List NormalPoint) (t : ℚ × ℚ × ℚ)
    (ht : t ∈ readNormals cloud) :
    ∃ p ∈ cloud, p.nx = some t.1 ∧ p.ny = some t.2.1 ∧ p.nz = some t.2.2 := by
  unfold readNormals at ht
  rw [List.mem_filterMap] at ht
  obtain ⟨p, hp, hfp⟩ := ht
  refine ⟨p, hp, ?_⟩
  cases hx : p.nx with
  | none => simp [hx] at hfp
  | some a =>
    cases hy : p.ny with
    | none => simp [hx, hy] at hfp
    | some b =>
      cases hz : p.nz with
      | none => simp [hx, hy, hz] at hfp
      | some c =>
        simp only [hx, hy, hz, Option.some.injEq] at hfp
        subst hfp
        exact ⟨rfl, rfl, rfl⟩

/-! ### Invariants of region growing and the cluster loop -/

theorem grow_visited_subset (n : ℕ) (nbrs : ℕ → List ℕ)
    (visited : Finset ℕ) (queue cluster : List ℕ) :
    visited ⊆ (grow n nbrs visited queue cluster).1 := by
  induction visited, queue, cluster using grow.induct n nbrs with
  | case1 visited cluster =>
    rw [grow]
  | case2 visited cluster q rest ih =>
    rw [grow]
    exact subset_trans Finset.subset_union_left ih

theorem grow_cluster_mem (n : ℕ) (nbrs : ℕ → List ℕ)
    (visited : Finset ℕ) (queue cluster : List ℕ) :
    ∀ x ∈ (grow n nbrs visited queue cluster).2,
      x ∈ cluster ∨ (x < n ∧ x ∉ visited) := by
  induction visited, queue, cluster using grow.induct n nbrs with
  | case1 visited cluster =>
    intro x hx
    rw [grow] at hx
    exact Or.inl hx
  | case2 visited cluster q rest ih =>
    intro x hx
    rw [grow] at hx
    rcases ih x hx with hc | ho
    · rcases List.mem_append.mp hc with h1 | h2
      · exact Or.inl h1
      · have hprop := List.of_mem_filter h2
        rw [decide_eq_true_eq] at hprop
        exact Or.inr hprop
    · exact Or.inr ⟨ho.1, fun hv => ho.2 (Finset.mem_union_left _ hv)⟩

theorem grow_cluster_subset_visited (n : ℕ) (nbrs : ℕ → List ℕ)
    (visited : Finset ℕ) (queue cluster : List ℕ) :
    cluster.toFinset ⊆ visited →
      (grow n nbrs visited queue cluster).2.toFinset
        ⊆ (grow n nbrs visited queue cluster).1 := by
  induction visited, queue, cluster using grow.induct n nbrs with
  | case1 visited cluster =>
    intro h
    rw [grow]
    exact h
  | case2 visited cluster q rest ih =>
    intro h
    rw [grow]
    apply ih
    rw [List.toFinset_append]
    exact Finset.union_subset_union h subset_rfl

theorem clusterLoop_mem (n : ℕ) (nbrs : ℕ → List ℕ) (mmin mmax : ℕ)
    (i : ℕ) (visited : Finset ℕ) :
    ∀ c ∈ clusterLoop n nbrs mmin mmax i visited, ∀ x ∈ c,
      x < n ∧ x ∉ visited := by
  induction i, visited using clusterLoop.induct n nbrs mmin mmax with
  | case1 i visited hlt hmem ih =>
    intro c hc x hx
    rw [clusterLoop, dif_pos hlt, if_pos hmem] at hc
    exact ih c hc x hx
  | case2 i visited hlt hmem res hsize ih =>
    intro c hc x hx
    rw [clusterLoop, dif_pos hlt, if_neg hmem] at hc
    simp only [if_pos hsize] at hc
    rcases List.mem_cons.mp hc with hchead | hctail
    · subst hchead
      rcases grow_cluster_mem n nbrs (insert i visited) [i] [i] x hx with h1 | h2
      · rcases List.mem_singleton.mp h1 with rfl
        exact ⟨hlt, hmem⟩
      · exact ⟨h2.1, fun hv => h2.2 (Finset.mem_insert_of_mem hv)⟩
    · have := ih c hctail x hx
      refine ⟨this.1, fun hv => this.2 ?_⟩
      exact grow_visited_subset n nbrs (insert i visited) [i] [i]
        (Finset.mem_insert_of_mem hv)
  | case3 i visited hlt hmem res hsize ih =>
    intro c hc x hx
    rw [clusterLoop, dif_pos hlt, if_neg hmem] at hc
    simp only [if_neg hsize] at hc
    have := ih c hc x hx
    refine ⟨this.1, fun hv => this.2 ?_⟩
    exact grow_visited_subset n nbrs (insert i visited) [i] [i]
      (Finset.mem_insert_of_mem hv)
  | case4 i visited hlt =>
    intro c hc
    rw [clusterLoop, dif_neg hlt] at hc
    exact absurd hc (List.not_mem_nil c)

theorem clusterLoop_sizes (n : ℕ) (nbrs : ℕ → List ℕ) (mmin mmax : ℕ)
    (i : ℕ) (visited : Finset ℕ) :
    ∀ c ∈ clusterLoop n nbrs mmin mmax i visited,
      mmin ≤ c.length ∧ c.length ≤ mmax := by
  induction i, visited using clusterLoop.induct n nbrs mmin mmax with
  | case1 i visited hlt hmem ih =>
    intro c hc
    rw [clusterLoop, dif_pos hlt, if_pos hmem] at hc
    exact ih c hc
  | case2 i visited hlt hmem res hsize ih =>
    intro c hc
    rw [clusterLoop, dif_pos hlt, if_neg hmem] at hc
    simp only [if_pos hsize] at hc
    rcases List.mem_cons.mp hc with hchead | hctail
    · subst hchead
      exact hsize
    · exact ih c hctail
  | case3 i visited hlt hmem res hsize ih =>
    intro c hc
    rw [clusterLoop, dif_pos hlt, if_neg hmem] at hc
    simp only [if_neg hsize] at hc
    exact ih c hc
  | case4 i visited hlt =>
    intro c hc
    rw [clusterLoop, dif_neg hlt] at hc
    exact absurd hc (List.not_mem_nil c)

theorem clusterLoop_pairwise (n : ℕ) (nbrs : ℕ → List ℕ) (mmin mmax : ℕ)
    (i : ℕ) (visited : Finset ℕ) :
    List.Pairwise (fun c d => ∀ x ∈ c, x ∉ d)
      (clusterLoop n nbrs mmin mmax i visited) := by
  induction i, visited using clusterLoop.induct n nbrs mmin mmax with
  | case1 i visited hlt hmem ih =>
    rw [clusterLoop, dif_pos hlt, if_pos hmem]
    exact ih
  | case2 i visited hlt hmem res hsize ih =>
    rw [clusterLoop, dif_pos hlt, if_neg hmem]
    simp only [if_pos hsize]
    refine List.Pairwise.cons ?_ ih
    intro d hd x hx hxd
    have hxv : x ∈ (grow n nbrs (insert i visited) [i] [i]).1 := by
      apply grow_cluster_subset_visited n nbrs (insert i visited) [i] [i]
      · intro y hy
        rw [List.mem_toFinset, List.mem_singleton] at hy
        subst hy
        exact Finset.mem_insert_self _ _
      · rw [List.mem_toFinset]
        exact hx
    exact (clusterLoop_mem n nbrs mmin mmax (i + 1)
      (grow n nbrs (insert i visited) [i] [i]).1 d hd x hxd).2 hxv
  | case3 i visited hlt hmem res hsize ih =>
    rw [clusterLoop, dif_pos hlt, if_neg hmem]
    simp only [if_neg hsize]
    exact ih
  | case4 i visited hlt =>
    rw [clusterLoop, dif_neg hlt]
    exact List.Pairwise.nil

/-! ### RANSAC invariants -/

theorem ransacTrial_inliers (pts : List Pt) (τ : ℚ) (t : ℕ × ℕ × ℕ)
    (m : PlaneModel) (idx : List ℕ)
    (h : ransacTrial pts τ t = some (m, idx)) : idx = planeInliers pts m τ := by
  unfold ransacTrial at h
  split at h
  · cases hpf : planeFrom (getPt pts t.1) (getPt pts t.2.1) (getPt pts t.2.2) with
    | none =>
      rw [hpf] at h
      simp at h
    | some m0 =>
      rw [hpf] at h
      simp only [Option.map_some', Option.some.injEq, Prod.mk.injEq] at h
      obtain ⟨hm, hidx⟩ := h
      subst hm
      exact hidx.symm
  · simp at h

theorem ransacStep_inliers (pts : List Pt) (τ : ℚ) (stream : ℕ → ℕ × ℕ × ℕ)
    (acc : Option (PlaneModel × List ℕ)) (k : ℕ)
    (hacc : ∀ m idx, acc = some (m, idx) → idx = planeInliers pts m τ) :
    ∀ m idx, ransacStep pts τ stream acc k = some (m, idx) →
      idx = planeInliers pts m τ := by
  intro m idx h
  unfold ransacStep at h
  cases htr : ransacTrial pts τ (stream k) with
  | none =>
    rw [htr] at h
    exact hacc m idx h
  | some p =>
    obtain ⟨m0, inl⟩ := p
    rw [htr] at h
    have hinl : inl = planeInliers pts m0 τ := ransacTrial_inliers pts τ _ m0 inl htr
    cases hb : acc with
    | none =>
      rw [hb] at h
      simp only [Option.some.injEq, Prod.mk.injEq] at h
      obtain ⟨hm, hidx⟩ := h
      subst hm
      subst hidx
      exact hinl
    | some bp =>
      obtain ⟨bm, binl⟩ := bp
      rw [hb] at h
      dsimp only at h
      by_cases hlen : binl.length < inl.length
      · rw [if_pos hlen] at h
        simp only [Option.some.injEq, Prod.mk.injEq] at h
        obtain ⟨hm, hidx⟩ := h
        subst hm
        subst hidx
        exact hinl
      · rw [if_neg hlen] at h
        exact hacc m idx (hb.trans h)

theorem ransac_foldl_inliers (pts : List Pt) (τ : ℚ) (stream : ℕ → ℕ × ℕ × ℕ)
    (l : List ℕ) :
    ∀ (acc : Option (PlaneModel × List ℕ)),
      (∀ m idx, acc = some (m, idx) → idx = planeInliers pts m τ) →
      ∀ m idx, l.foldl (ransacStep pts τ stream) acc = some (m, idx) →
        idx = planeInliers pts m τ := by
  induction l with
  | nil =>
    intro acc hacc m idx h
    exact hacc m idx h
  | cons k ks ih =>
    intro acc hacc m idx h
    rw [List.foldl_cons] at h
    exact ih (ransacStep pts τ stream acc k)
      (ransacStep_inliers pts τ stream acc k hacc) m idx h

/-- Whatever `ransacSegment` returns, its index set is exactly the set
of points within `τ` of the returned plane. -/
theorem ransacSegment_inliers (pts : List Pt) (τ : ℚ) (K : ℕ)
    (stream : ℕ → ℕ × ℕ × ℕ) (m : PlaneModel) (idx : List ℕ)
    (h : ransacSegment pts τ K stream = some (m, idx)) :
    idx = planeInliers pts m τ := by
  unfold ransacSegment at h
  exact ransac_foldl_inliers pts τ stream (List.range K) none (by simp) m idx h

theorem mem_planeInliers (pts : List Pt) (m : PlaneModel) (τ : ℚ) (i : ℕ) :
    i ∈ planeInliers pts m τ ↔ i < pts.length ∧ isInlier m τ (getPt pts i) := by
  unfold planeInliers
  rw [List.mem_filter, List.mem_range, decide_eq_true_eq]

theorem foldl_congr_of_mem {α β : Type} (f g : α → β → α) (l : List β)
    (h : ∀ b ∈ l, ∀ a, f a b = g a b) :
    ∀ a, l.foldl f a = l.foldl g a := by
  induction l with
  | nil => intro a; rfl
  | cons b bs ih =>
    intro a
    rw [List.foldl_cons, List.foldl_cons, h b (List.mem_cons_self b bs)]
    exact ih (fun x hx a2 => h x (List.mem_cons_of_mem b hx) a2) (g a b)

/-- The segmenter reads only the first `K` draws of its random source. -/
theorem ransacSegment_stream_congr (pts : List Pt) (τ : ℚ) (K : ℕ)
    (s1 s2 : ℕ → ℕ × ℕ × ℕ) (h : ∀ i < K, s1 i = s2 i) :
    ransacSegment pts τ K s1 = ransacSegment pts τ K s2 := by
  unfold ransacSegment
  apply foldl_congr_of_mem
  intro k hk acc
  unfold ransacStep
  rw [h k (List.mem_range.mp hk)]

/-! ### Extraction partitions the cloud -/

theorem extractEnum_disjoint {α : Type} (cl : List α) (idx : List ℕ) :
    List.Disjoint (extractEnum cl idx false) (extractEnum cl idx true) := by
  intro e he1 he2
  unfold extractEnum at he1 he2
  have h1 := List.of_mem_filter he1
  have h2 := List.of_mem_filter he2
  rw [bne_iff_ne] at h1 h2
  simp at h1 h2
  exact h2 h1

theorem extract_partition {α : Type} (cl : List α) (idx : List ℕ) :
    (extract cl idx false ++ extract cl idx true).Perm cl := by
  unfold extract extractEnum
  rw [← List.map_append]
  have hperm : (cl.enum.filter (fun e => decide (e.1 ∈ idx) != false)
      ++ cl.enum.filter (fun e => decide (e.1 ∈ idx) != true)).Perm cl.enum := by
    have hcongr : cl.enum.filter (fun e => decide (e.1 ∈ idx) != true)
        = cl.enum.filter (fun e => !(decide (e.1 ∈ idx) != false)) := by
      apply List.filter_congr
      intro e _
      cases h : decide (e.1 ∈ idx) <;> rfl
    rw [hcongr]
    have hcongr2 : cl.enum.filter (fun e => decide (e.1 ∈ idx) != false)
        = cl.enum.filter (fun e => decide (e.1 ∈ idx)) := by
      apply List.filter_congr
      intro e _
      cases h : decide (e.1 ∈ idx) <;> rfl
    rw [hcongr2]
    have hcongr3 : cl.enum.filter (fun e => !(decide (e.1 ∈ idx) != false))
        = cl.enum.filter (fun e => !(decide (e.1 ∈ idx))) := by
      apply List.filter_congr
      intro e _
      cases h : decide (e.1 ∈ idx) <;> rfl
    rw [hcongr3]
    exact List.filter_append_perm _ _
  have := hperm.map Prod.snd
  rw [List.enum_map_snd] at this
  exact this

theorem collinearCloud_yz (i : ℕ) (h : i < collinearCloud.length) :
    (getPt collinearCloud i).2.1 = 0 ∧ (getPt collinearCloud i).2.2 = 0 := by
  have h4 : i < 4 := h
  interval_cases i
  · exact ⟨rfl, rfl⟩
  · exact ⟨rfl, rfl⟩
  · exact ⟨rfl, rfl⟩
  · exact ⟨rfl, rfl⟩

theorem planeFrom_yz_zero (p1 p2 p3 : Pt)
    (h1 : p1.2.1 = 0 ∧ p1.2.2 = 0) (h2 : p2.2.1 = 0 ∧ p2.2.2 = 0)
    (h3 : p3.2.1 = 0 ∧ p3.2.2 = 0) :
    planeFrom p1 p2 p3 = none := by
  unfold planeFrom cross sub
  rw [if_pos]
  rw [Prod.mk.injEq, Prod.mk.injEq]
  refine ⟨?_, ?_, ?_⟩ <;> rw [h1.1, h1.2, h2.1, h2.2, h3.1, h3.2] <;> ring

theorem ransacTrial_collinear (τ : ℚ) (t : ℕ × ℕ × ℕ) :
    ransacTrial collinearCloud τ t = none := by
  unfold ransacTrial
  split
  · next hv =>
    obtain ⟨ha, hb, hc, _⟩ := hv
    rw [planeFrom_yz_zero _ _ _ (collinearCloud_yz t.1 ha)
      (collinearCloud_yz t.2.1 hb) (collinearCloud_yz t.2.2 hc)]
    rfl
  · rfl

theorem foldl_fixed_of_id {α β : Type} (f : α → β → α) (l : List β) (a : α)
    (h : ∀ b ∈ l, f a b = a) : l.foldl f a = a := by
  induction l with
  | nil => rfl
  | cons b bs ih =>
    rw [List.foldl_cons, h b (List.mem_cons_self b bs)]
    exact ih (fun x hx => h x (List.mem_cons_of_mem b hx))

/-! ### Voxel-grid size facts -/

theorem voxelFilter_length (cloud : List VPoint) (L : ℚ) :
    (voxelFilter cloud L).length
      = ((cloud.map (fun p => voxelKey L (cloudMinPos cloud) p.pos)).dedup).length := by
  unfold voxelFilter
  rw [List.length_map]

theorem voxelFilter_length_le (cloud : List VPoint) (L : ℚ) :
    (voxelFilter cloud L).length ≤ cloud.length := by
  rw [voxelFilter_length]
  calc ((cloud.map (fun p => voxelKey L (cloudMinPos cloud) p.pos)).dedup).length
      ≤ (cloud.map (fun p => voxelKey L (cloudMinPos cloud) p.pos)).length :=
        (List.dedup_sublist _).length_le
    _ = cloud.length := List.length_map _ _

theorem voxelFilter_length_eq_iff_nodup (cloud : List VPoint) (L : ℚ)
    (h : (voxelFilter cloud L).length = cloud.length) :
    (cloud.map (fun p => voxelKey L (cloudMinPos cloud) p.pos)).Nodup := by
  rw [voxelFilter_length] at h
  have hlen : ((cloud.map (fun p => voxelKey L (cloudMinPos cloud) p.pos)).dedup).length
      = (cloud.map (fun p => voxelKey L (cloudMinPos cloud) p.pos)).length := by
    rw [h, List.length_map]
  have heq := (List.dedup_sublist
    (cloud.map (fun p => voxelKey L (cloudMinPos cloud) p.pos))).eq_of_length hlen
  exact List.dedup_eq_self.mp heq

/-! ### Feature-vector shape and normalization lemmas -/

theorem computeColorHistograms_length (cloud : List ColorPoint) (m : Bool) :
    (computeColorHistograms cloud m).length = 96 := by
  unfold computeColorHistograms colorHistogramCounts
  simp [histogram_length]

theorem computeNormalHistograms_length (cloud : List NormalPoint) :
    (computeNormalHistograms cloud).length = 60 := by
  unfold computeNormalHistograms normalHistogramCounts
  simp [histogram_length]

theorem computeColorHistograms_sum_one (cloud : List ColorPoint) (m : Bool)
    (hne : readColorPoints cloud ≠ []) :
    (computeColorHistograms cloud m).sum = 1 := by
  simp only [computeColorHistograms]
  apply normalized_sum_one
  rw [colorHistogramCounts_sum cloud m]
  have h1 : 0 < (readColorPoints cloud).length := List.length_pos.mpr hne
  omega

theorem computeNormalHistograms_sum_one (cloud : List NormalPoint)
    (hne : readNormals cloud ≠ [])
    (hrange : ∀ t ∈ readNormals cloud,
      (-1 ≤ t.1 ∧ t.1 ≤ 1) ∧ (-1 ≤ t.2.1 ∧ t.2.1 ≤ 1) ∧ (-1 ≤ t.2.2 ∧ t.2.2 ≤ 1)) :
    (computeNormalHistograms cloud).sum = 1 := by
  simp only [computeNormalHistograms]
  apply normalized_sum_one
  rw [normalHistogramCounts_sum cloud hrange]
  have h1 : 0 < (readNormals cloud).length := List.length_pos.mpr hne
  omega

/-! ### Claim theorems -/

/-- C1: for every non-empty cluster cloud with (NaN-free) colors and
corresponding unit normals, the extracted feature vector is the
concatenation of the normalized color histogram (three 32-bin
histograms over [0,256), 96 values) and the normalized normal
histogram (three 20-bin histograms over [-1,1], 60 values), 156 values
total, the color sub-range summing to 1 and the normal sub-range
independently summing to 1, each normalized by its own bins' total. -/
theorem featureVector_histogram_spec
    (cloud : List ColorPoint) (normals : List NormalPoint) (m : Bool)
    (hc : cloud ≠ [])
    (hfin : ∀ p ∈ cloud, colorPointFinite p)
    (hlen : normals.length = cloud.length)
    (hunit : ∀ p ∈ normals, ∃ a b c, p.nx = some a ∧ p.ny = some b ∧ p.nz = some c
      ∧ a ^ 2 + b ^ 2 + c ^ 2 = 1) :
    featureVector cloud normals
      = computeColorHistograms cloud true ++ computeNormalHistograms normals
    ∧ (computeColorHistograms cloud m).length = 96
    ∧ (computeNormalHistograms normals).length = 60
    ∧ (featureVector cloud normals).length = 156
    ∧ (computeColorHistograms cloud m).sum = 1
    ∧ (computeNormalHistograms normals).sum = 1 := by
  have hnfin : ∀ p ∈ normals, normalPointFinite p = true := by
    intro p hp
    obtain ⟨a, b, c, ha, hb, hc2, _⟩ := hunit p hp
    unfold normalPointFinite
    rw [ha, hb, hc2]
    rfl
  have hclen : (readColorPoints cloud).length = cloud.length :=
    readColorPoints_length_of_finite cloud hfin
  have hcne : readColorPoints cloud ≠ [] := by
    apply List.ne_nil_of_length_pos
    rw [hclen]
    exact List.length_pos.mpr hc
  have hrlen : (readNormals normals).length = normals.length :=
    readNormals_length_of_finite normals hnfin
  have hnne : readNormals normals ≠ [] := by
    apply List.ne_nil_of_length_pos
    rw [hrlen, hlen]
    exact List.length_pos.mpr hc
  have hbound : ∀ t ∈ readNormals normals,
      (-1 ≤ t.1 ∧ t.1 ≤ 1) ∧ (-1 ≤ t.2.1 ∧ t.2.1 ≤ 1) ∧ (-1 ≤ t.2.2 ∧ t.2.2 ≤ 1) := by
    intro t ht
    obtain ⟨p, hp, hx, hy, hz⟩ := mem_readNormals normals t ht
    obtain ⟨a, b, c, ha, hb, hc2, habc⟩ := hunit p hp
    rw [ha] at hx
    rw [hb] at hy
    rw [hc2] at hz
    injection hx with hx
    injection hy with hy
    injection hz with hz
    subst hx
    subst hy
    subst hz
    refine ⟨⟨?_, ?_⟩, ⟨?_, ?_⟩, ?_, ?_⟩ <;>
      nlinarith [sq_nonneg (t.1 + 1), sq_nonneg (t.1 - 1), sq_nonneg (t.2.1 + 1),
        sq_nonneg (t.2.1 - 1), sq_nonneg (t.2.2 + 1), sq_nonneg (t.2.2 - 1),
        sq_nonneg t.1, sq_nonneg t.2.1, sq_nonneg t.2.2]
  refine ⟨rfl, computeColorHistograms_length cloud m,
    computeNormalHistograms_length normals, ?_,
    computeColorHistograms_sum_one cloud m hcne,
    computeNormalHistograms_sum_one normals hnne hbound⟩
  unfold featureVector
  rw [List.length_append, computeColorHistograms_length,
    computeNormalHistograms_length]

theorem featureVector_histogram_spec_witness :
    (featureVector sampleCluster sampleNormals).length = 156
    ∧ (computeColorHistograms sampleCluster true).sum = 1
    ∧ (computeNormalHistograms sampleNormals).sum = 1 := by
  have h := featureVector_histogram_spec sampleCluster sampleNormals true
    (by simp [sampleCluster])
    (by
      intro p hp
      rw [sampleCluster, List.mem_singleton] at hp
      subst hp
      rfl)
    rfl
    (by
      intro p hp
      rw [sampleNormals, List.mem_singleton] at hp
      subst hp
      exact ⟨0, 0, 1, rfl, rfl, rfl, by norm_num⟩)
  exact ⟨h.2.2.2.1, h.2.2.2.2.1, h.2.2.2.2.2⟩

/-- C2 (the code lacks the guard the spec mandates): on a zero-point
cluster both histogram totals are 0, so `hist_features / np.sum(...)`
divides by zero — in the Python this silently yields NaN in every
entry; no `EmptyCluster` (or any other) error condition exists in
`compute_color_histograms` / `compute_normal_histograms`. -/
theorem emptyCluster_zero_total_no_guard :
    (colorHistogramCounts [] true).sum = 0
    ∧ (colorHistogramCounts [] false).sum = 0
    ∧ (normalHistogramCounts []).sum = 0 := by
  refine ⟨?_, ?_, ?_⟩ <;> rfl

/-- C9: `using_hsv` defaults to `True`, the pipeline passes
`using_hsv=True` explicitly, and in that mode the binned channel values
are the HSV conversions of each point's RGB rescaled by 255. -/
theorem usingHsv_default_and_pipeline (cloud : List ColorPoint)
    (normals : List NormalPoint) :
    computeColorHistograms cloud = computeColorHistograms cloud true
    ∧ featureVector cloud normals
        = computeColorHistograms cloud true ++ computeNormalHistograms normals
    ∧ colorValues cloud true
        = (readColorPoints cloud).map (fun p => pointColorHsv p.2.2.2) := by
  refine ⟨rfl, rfl, ?_⟩
  unfold colorValues
  simp

/-- C10: `skip_nans=True` silently drops every point with a NaN field
from both the histogrammed values and the normalization total: both
feature functions compute exactly what they compute on the NaN-free
sub-cloud, the color total counts 3 values per NaN-free point only,
the normal total is bounded by the NaN-free count, and a cloud with a
NaN point yields a strictly smaller total than its point count allows. -/
theorem skip_nans_drops_nan_points (m : Bool) (cloud : List ColorPoint)
    (ncloud : List NormalPoint) :
    computeColorHistograms cloud m
      = computeColorHistograms (cloud.filter colorPointFinite) m
    ∧ computeNormalHistograms ncloud
      = computeNormalHistograms (ncloud.filter normalPointFinite)
    ∧ (colorHistogramCounts cloud m).sum
      = 3 * (cloud.filter colorPointFinite).length
    ∧ (normalHistogramCounts ncloud).sum
      ≤ 3 * (ncloud.filter normalPointFinite).length
    ∧ (normalHistogramCounts [{ nx := none, ny := some 0, nz := some 0 }]).sum
      < 3 * ([{ nx := none, ny := some 0, nz := some 0 }] : List NormalPoint).length := by
  refine ⟨computeColorHistograms_filter cloud m,
    computeNormalHistograms_filter ncloud, ?_, ?_, by decide⟩
  · rw [colorHistogramCounts_sum cloud m, ← readColorPoints_filter cloud]
    rw [readColorPoints_length_of_finite (cloud.filter colorPointFinite)
      (fun p hp => (List.mem_filter.mp hp).2)]
  · have hn : (readNormals ncloud).length = (ncloud.filter normalPointFinite).length := by
      rw [← readNormals_filter ncloud]
      exact readNormals_length_of_finite (ncloud.filter normalPointFinite)
        (fun p hp => (List.mem_filter.mp hp).2)
    unfold normalHistogramCounts
    rw [List.sum_append, List.sum_append]
    have h1 := histogram_sum_le 20 (by norm_num) (-1) 1
      ((readNormals ncloud).map (fun t => t.1))
    have h2 := histogram_sum_le 20 (by norm_num) (-1) 1
      ((readNormals ncloud).map (fun t => t.2.1))
    have h3 := histogram_sum_le 20 (by norm_num) (-1) 1
      ((readNormals ncloud).map (fun t => t.2.2))
    rw [List.length_map] at h1 h2 h3
    omega

/-- C3: for every cloud, radius r>0 and size bounds 1 ≤ mmin ≤ mmax,
the clusterer returns pairwise-disjoint index sets, each with size in
[mmin, mmax], whose union is a subset of the cloud's indices;
out-of-window clusters are dropped without error. -/
theorem euclideanClusterExtraction_invariants (pts : List Pt) (r : ℚ)
    (mmin mmax : ℕ) (hr : 0 < r) (hmin : 1 ≤ mmin) (hminmax : mmin ≤ mmax) :
    List.Pairwise (fun c d => ∀ x ∈ c, x ∉ d)
      (euclideanClusterExtraction pts r mmin mmax)
    ∧ (∀ c ∈ euclideanClusterExtraction pts r mmin mmax,
        mmin ≤ c.length ∧ c.length ≤ mmax)
    ∧ (∀ c ∈ euclideanClusterExtraction pts r mmin mmax, ∀ x ∈ c,
        x < pts.length) := by
  unfold euclideanClusterExtraction
  refine ⟨clusterLoop_pairwise _ _ _ _ _ _, clusterLoop_sizes _ _ _ _ _ _, ?_⟩
  intro c hc x hx
  exact (clusterLoop_mem _ _ _ _ _ _ c hc x hx).1

theorem euclideanClusterExtraction_invariants_witness :
    List.Pairwise (fun c d => ∀ x ∈ c, x ∉ d)
      (euclideanClusterExtraction [((0 : ℚ), (0 : ℚ), (0 : ℚ))] (1 / 50) 10 2000)
    ∧ (∀ c ∈ euclideanClusterExtraction [((0 : ℚ), (0 : ℚ), (0 : ℚ))] (1 / 50) 10 2000,
        10 ≤ c.length ∧ c.length ≤ 2000)
    ∧ (∀ c ∈ euclideanClusterExtraction [((0 : ℚ), (0 : ℚ), (0 : ℚ))] (1 / 50) 10 2000,
        ∀ x ∈ c, x < [((0 : ℚ), (0 : ℚ), (0 : ℚ))].length) :=
  euclideanClusterExtraction_invariants [((0 : ℚ), (0 : ℚ), (0 : ℚ))] (1 / 50) 10 2000
    (by norm_num) (by norm_num) (by norm_num)

/-- C4: whenever the plane segmenter returns a model, the returned
index set is exactly the set of point indices within τ of the plane,
and extracting it positively and negatively partitions the segmented
cloud: the two extracted clouds are disjoint (at the index level) and
together contain every point exactly once. -/
theorem ransacSegment_extract_partition (pts : List Pt) (τ : ℚ) (K : ℕ)
    (stream : ℕ → ℕ × ℕ × ℕ) (hτ : 0 < τ) :
    (∀ m idx, ransacSegment pts τ K stream = some (m, idx) →
      idx = planeInliers pts m τ
      ∧ ∀ i, i ∈ idx ↔ i < pts.length ∧ isInlier m τ (getPt pts i))
    ∧ (∀ idx : List ℕ,
        List.Disjoint (extractEnum pts idx false) (extractEnum pts idx true)
        ∧ (extract pts idx false ++ extract pts idx true).Perm pts) := by
  constructor
  · intro m idx h
    have he := ransacSegment_inliers pts τ K stream m idx h
    refine ⟨he, fun i => ?_⟩
    rw [he]
    exact mem_planeInliers pts m τ i
  · intro idx
    exact ⟨extractEnum_disjoint pts idx, extract_partition pts idx⟩

theorem ransacSegment_extract_partition_witness :
    (∀ m idx, ransacSegment demoCloud 1 1 streamA = some (m, idx) →
      idx = planeInliers demoCloud m 1)
    ∧ (extract demoCloud [0, 1, 2] false ++ extract demoCloud [0, 1, 2] true).Perm
        demoCloud := by
  have h := ransacSegment_extract_partition demoCloud 1 1 streamA (by norm_num)
  exact ⟨fun m idx hm => (h.1 m idx hm).1, (h.2 [0, 1, 2]).2⟩

/-- C5 counterexample: the plane-segmentation stage's output is not a
function of the cloud and explicit parameters alone — two behaviours
of the implicit, unseeded random source produce different results on
the same input, so two runs on the same inputs and parameters need not
agree, and no seed parameter exists in the code to pin the source
down. -/
theorem ransac_output_depends_on_random_source :
    ransacSegment demoCloud (1 / 100) 1 streamA
      ≠ ransacSegment demoCloud (1 / 100) 1 streamB := by
  have hr : List.range 1 = [0] := rfl
  have h1 : ransacSegment demoCloud (1 / 100) 1 streamA
      = some ({ a := 0, b := 0, c := 1, d := 0 },
          planeInliers demoCloud { a := 0, b := 0, c := 1, d := 0 } (1 / 100)) := by
    have hp1 : planeFrom (getPt demoCloud 0) (getPt demoCloud 1) (getPt demoCloud 2)
        = some { a := 0, b := 0, c := 1, d := 0 } := by
      have e0 : getPt demoCloud 0 = ((0 : ℚ), (0 : ℚ), (0 : ℚ)) := rfl
      have e1 : getPt demoCloud 1 = ((1 : ℚ), (0 : ℚ), (0 : ℚ)) := rfl
      have e2 : getPt demoCloud 2 = ((0 : ℚ), (1 : ℚ), (0 : ℚ)) := rfl
      rw [e0, e1, e2]
      norm_num [planeFrom, cross, sub, dot]
    have hv : validTriple demoCloud.length (streamA 0) := by
      norm_num [validTriple, demoCloud, streamA]
    unfold ransacSegment
    rw [hr, List.foldl_cons, List.foldl_nil]
    unfold ransacStep ransacTrial
    rw [if_pos hv]
    have hs : streamA 0 = (0, 1, 2) := rfl
    rw [hs, hp1]
    rfl
  have h2 : ransacSegment demoCloud (1 / 100) 1 streamB
      = some ({ a := 0, b := 0, c := 1, d := -1 },
          planeInliers demoCloud { a := 0, b := 0, c := 1, d := -1 } (1 / 100)) := by
    have hp2 : planeFrom (getPt demoCloud 3) (getPt demoCloud 4) (getPt demoCloud 5)
        = some { a := 0, b := 0, c := 1, d := -1 } := by
      have e3 : getPt demoCloud 3 = ((0 : ℚ), (0 : ℚ), (1 : ℚ)) := rfl
      have e4 : getPt demoCloud 4 = ((1 : ℚ), (0 : ℚ), (1 : ℚ)) := rfl
      have e5 : getPt demoCloud 5 = ((0 : ℚ), (1 : ℚ), (1 : ℚ)) := rfl
      rw [e3, e4, e5]
      norm_num [planeFrom, cross, sub, dot]
    have hv : validTriple demoCloud.length (streamB 0) := by
      norm_num [validTriple, demoCloud, streamB]
    unfold ransacSegment
    rw [hr, List.foldl_cons, List.foldl_nil]
    unfold ransacStep ransacTrial
    rw [if_pos hv]
    have hs : streamB 0 = (3, 4, 5) := rfl
    rw [hs, hp2]
    rfl
  rw [h1, h2]
  simp only [ne_eq, Option.some.injEq, Prod.mk.injEq, PlaneModel.mk.injEq, not_and]
  intro hcon
  norm_num at hcon

/-- C5 amended: every modelled stage is deterministic in its explicit
inputs once the random source is passed explicitly — the segmenter's
output depends only on the first K draws of the source — but in the
code the source is PCL's implicit one and is not injectable, and the
cluster-color palette `get_color_list.color_list` is process-wide
mutable state, so reproducibility holds only source-behaviour-wise. -/
theorem ransacSegment_deterministic_given_source (pts : List Pt) (τ : ℚ)
    (K : ℕ) (s1 s2 : ℕ → ℕ × ℕ × ℕ) (h : ∀ i < K, s1 i = s2 i) :
    ransacSegment pts τ K s1 = ransacSegment pts τ K s2 :=
  ransacSegment_stream_congr pts τ K s1 s2 h

theorem ransacSegment_deterministic_given_source_witness :
    ransacSegment demoCloud 1 1 streamA
      = ransacSegment demoCloud 1 1 (fun i => if i < 1 then (0, 1, 2) else (9, 9, 9)) := by
  apply ransacSegment_deterministic_given_source
  intro i hi
  have hz : i = 0 := Nat.lt_one_iff.mp hi
  subst hz
  rfl

/-- C6 (the code has no handler for this condition): on a degenerate
all-collinear frame every RANSAC trial draws a collinear triple and is
discarded, so the segmenter reports NoModelFound (`none`) for every
trial budget and every behaviour of the random source; `pcl_callback`
unconditionally extracts and publishes from whatever `segment`
returns, with no frame-skipping path. -/
theorem ransacSegment_collinear_none (τ : ℚ) (K : ℕ)
    (stream : ℕ → ℕ × ℕ × ℕ) :
    ransacSegment collinearCloud τ K stream = none := by
  unfold ransacSegment
  apply foldl_fixed_of_id
  intro k _
  unfold ransacStep
  rw [ransacTrial_collinear τ (stream k)]

/-- C7: a point is kept by the pass-through filter iff its coordinate
on the crop axis lies in [min, max]; survivors keep their relative
order (the output is a sublist of the input); and cropping twice with
the same bounds equals cropping once. -/
theorem passthroughFilter_spec (cloud : List Pt) (a : Axis) (lo hi : ℚ)
    (hle : lo ≤ hi) :
    (∀ p : Pt, p ∈ passthroughFilter cloud a lo hi
      ↔ p ∈ cloud ∧ lo ≤ axisCoord a p ∧ axisCoord a p ≤ hi)
    ∧ (passthroughFilter cloud a lo hi).Sublist cloud
    ∧ passthroughFilter (passthroughFilter cloud a lo hi) a lo hi
      = passthroughFilter cloud a lo hi := by
  refine ⟨?_, List.filter_sublist _, ?_⟩
  · intro p
    unfold passthroughFilter
    rw [List.mem_filter, decide_eq_true_eq]
  · unfold passthroughFilter
    rw [List.filter_filter]
    apply List.filter_congr
    intro p _
    cases h : decide (lo ≤ axisCoord a p ∧ axisCoord a p ≤ hi) <;> simp [h]

theorem passthroughFilter_spec_witness :
    passthroughFilter (passthroughFilter [((0 : ℚ), (0 : ℚ), (0 : ℚ))] Axis.z 0 1)
        Axis.z 0 1
      = passthroughFilter [((0 : ℚ), (0 : ℚ), (0 : ℚ))] Axis.z 0 1 :=
  (passthroughFilter_spec [((0 : ℚ), (0 : ℚ), (0 : ℚ))] Axis.z 0 1 (by norm_num)).2.2

/-- C8: for every cloud and leaf size L>0 the voxel filter emits at
most one point per occupied cube, so its output is never longer than
its input, with equality only when all points fall into distinct
cubes; the empty cloud yields the empty cloud. -/
theorem voxelFilter_size_spec (cloud : List VPoint) (L : ℚ) (hL : 0 < L) :
    (voxelFilter cloud L).length ≤ cloud.length
    ∧ voxelFilter [] L = []
    ∧ ((voxelFilter cloud L).length = cloud.length →
        (cloud.map (fun p => voxelKey L (cloudMinPos cloud) p.pos)).Nodup) :=
  ⟨voxelFilter_length_le cloud L, rfl, voxelFilter_length_eq_iff_nodup cloud L⟩

theorem voxelFilter_size_spec_witness :
    (voxelFilter [⟨((0 : ℚ), (0 : ℚ), (0 : ℚ)), ((0 : ℚ), (0 : ℚ), (0 : ℚ))⟩] 1).length
      ≤ ([⟨((0 : ℚ), (0 : ℚ), (0 : ℚ)), ((0 : ℚ), (0 : ℚ), (0 : ℚ))⟩] : List VPoint).length :=
  (voxelFilter_size_spec [⟨((0 : ℚ), (0 : ℚ), (0 : ℚ)), ((0 : ℚ), (0 : ℚ), (0 : ℚ))⟩] 1
    (by norm_num)).1

end Perception

